import Mathlib

/-!
Verification of the crypto-options pricing engine: a shallow embedding of the
Black-Scholes evaluator, the Heston characteristic-function pricer, the
calibration objective and the post-processing pipeline from
`src/scripts/black_scholes.py` and `src/scripts/heston_model.py`, together
with proofs settling the specification claims.
-/

open MeasureTheory Set Filter

noncomputable section

namespace CryptoOptions

/-! ## The standard normal CDF (model of scipy.stats.norm.cdf) -/

/-- Standard normal density. -/
def stdGauss (t : ℝ) : ℝ := Real.exp (-t ^ 2 / 2) / Real.sqrt (2 * Real.pi)

/-- Standard normal cumulative distribution function, the mathematical value
computed by scipy.stats.norm.cdf. -/
def normCdf (x : ℝ) : ℝ := ∫ t in Iic x, stdGauss t

/-! ## Black-Scholes pricer (src/scripts/black_scholes.py) -/

/-- d1 = (ln(S/K) + (r + σ²/2)·T) / (σ√T), as in the spec and the source. -/
def bs_d1 (S K T r sigma : ℝ) : ℝ :=
  (Real.log (S / K) + (r + 0.5 * sigma ^ 2) * T) / (sigma * Real.sqrt T)

/-- d2 = d1 − σ√T. -/
def bs_d2 (S K T r sigma : ℝ) : ℝ := bs_d1 S K T r sigma - sigma * Real.sqrt T

/-- The closed-form call value S·Φ(d1) − K·e^(−rT)·Φ(d2). -/
def bsCallValue (S K T r sigma : ℝ) : ℝ :=
  S * normCdf (bs_d1 S K T r sigma) - K * Real.exp (-r * T) * normCdf (bs_d2 S K T r sigma)

/-- The closed-form put value K·e^(−rT)·Φ(−d2) − S·Φ(−d1). -/
def bsPutValue (S K T r sigma : ℝ) : ℝ :=
  K * Real.exp (-r * T) * normCdf (-bs_d2 S K T r sigma) - S * normCdf (-bs_d1 S K T r sigma)

/-- Shallow embedding of the source function black_scholes; it yields none
exactly where the Python function returns None. The local variables d1, d2 and
the two branch prices of the source are factored into the named definitions
bs_d1, bs_d2, bsCallValue, bsPutValue above. -/
def black_scholes (S K T r sigma : ℝ) (option_type : String) : Option ℝ :=
  if S ≤ 0 ∨ K ≤ 0 ∨ T ≤ 0 ∨ sigma ≤ 0 then none
  else if sigma * Real.sqrt T ≤ 0 then none
  else if option_type = "put" ∧ normCdf (-bs_d2 S K T r sigma) < 0.01 then some 0
  else if option_type = "call" then some (bsCallValue S K T r sigma)
  else if option_type = "put" then some (bsPutValue S K T r sigma)
  else none

/-! ## Heston characteristic function and pricer (src/scripts/heston_model.py) -/

/-- Shallow embedding of the source function heston_cf. -/
def heston_cf (phi S T r kappa theta sigma rho v0 : ℝ) (j : ℕ) : ℂ :=
  let i : ℂ := Complex.I
  let u : ℝ := if j = 1 then 0.5 else -0.5
  let b : ℝ := if j = 1 then kappa - rho * sigma else kappa
  let d : ℂ := ((↑(rho * sigma) * i * ↑phi - ↑b) ^ 2 -
      (↑sigma) ^ 2 * (2 * ↑u * i * ↑phi - (↑phi : ℂ) ^ 2)) ^ ((1 : ℂ) / 2)
  let g : ℂ := (↑b - ↑(rho * sigma) * i * ↑phi + d) / (↑b - ↑(rho * sigma) * i * ↑phi - d)
  let C : ℂ := ↑r * i * ↑phi * ↑T + ↑(kappa * theta / sigma ^ 2) *
      ((↑b - ↑(rho * sigma) * i * ↑phi + d) * ↑T -
        2 * Complex.log ((1 - g * Complex.exp (d * ↑T)) / (1 - g)))
  let D : ℂ := ((↑b - ↑(rho * sigma) * i * ↑phi + d) / (↑sigma) ^ 2) *
      ((1 - Complex.exp (d * ↑T)) / (1 - g * Complex.exp (d * ↑T)))
  Complex.exp (C + D * ↑v0 + i * ↑phi * ↑(Real.log S))

/-- Spec-side characteristic function for branch 1, written from the spec's
words: b = κ − ρσ, weight +0.5, and the four formulas for d, g, C, D. -/
def hestonCfSpecOne (u S T r kappa theta sigma rho v0 : ℝ) : ℂ :=
  let i : ℂ := Complex.I
  let w : ℝ := 0.5
  let b : ℝ := kappa - rho * sigma
  let d : ℂ := ((↑(rho * sigma) * i * ↑u - ↑b) ^ 2 -
      (↑sigma) ^ 2 * (2 * ↑w * i * ↑u - (↑u : ℂ) ^ 2)) ^ ((1 : ℂ) / 2)
  let g : ℂ := (↑b - ↑(rho * sigma) * i * ↑u + d) / (↑b - ↑(rho * sigma) * i * ↑u - d)
  let C : ℂ := ↑r * i * ↑u * ↑T + ↑(kappa * theta / sigma ^ 2) *
      ((↑b - ↑(rho * sigma) * i * ↑u + d) * ↑T -
        2 * Complex.log ((1 - g * Complex.exp (d * ↑T)) / (1 - g)))
  let D : ℂ := ((↑b - ↑(rho * sigma) * i * ↑u + d) / (↑sigma) ^ 2) *
      ((1 - Complex.exp (d * ↑T)) / (1 - g * Complex.exp (d * ↑T)))
  Complex.exp (C + D * ↑v0 + i * ↑u * ↑(Real.log S))

/-- Spec-side characteristic function for branch 2, written from the spec's
words: b = κ, weight −0.5, and the four formulas for d, g, C, D. -/
def hestonCfSpecTwo (u S T r kappa theta sigma rho v0 : ℝ) : ℂ :=
  let i : ℂ := Complex.I
  let w : ℝ := -0.5
  let b : ℝ := kappa
  let d : ℂ := ((↑(rho * sigma) * i * ↑u - ↑b) ^ 2 -
      (↑sigma) ^ 2 * (2 * ↑w * i * ↑u - (↑u : ℂ) ^ 2)) ^ ((1 : ℂ) / 2)
  let g : ℂ := (↑b - ↑(rho * sigma) * i * ↑u + d) / (↑b - ↑(rho * sigma) * i * ↑u - d)
  let C : ℂ := ↑r * i * ↑u * ↑T + ↑(kappa * theta / sigma ^ 2) *
      ((↑b - ↑(rho * sigma) * i * ↑u + d) * ↑T -
        2 * Complex.log ((1 - g * Complex.exp (d * ↑T)) / (1 - g)))
  let D : ℂ := ((↑b - ↑(rho * sigma) * i * ↑u + d) / (↑sigma) ^ 2) *
      ((1 - Complex.exp (d * ↑T)) / (1 - g * Complex.exp (d * ↑T)))
  Complex.exp (C + D * ↑v0 + i * ↑u * ↑(Real.log S))

/-- Shallow embedding of the source integrand: the real part of
e^{−i·φ·ln K}·heston_cf(φ)/(i·φ), defined to be 0 at φ = 0. -/
def integrand (phi S K T r kappa theta sigma rho v0 : ℝ) (j : ℕ) : ℝ :=
  if phi ≠ 0 then
    (Complex.exp (-Complex.I * ↑phi * ↑(Real.log K)) *
      heston_cf phi S T r kappa theta sigma rho v0 j / (Complex.I * ↑phi)).re
  else 0

/-- The probability P_j computed inline in heston_price: 0.5 + (1/π) times the
quadrature of the integrand from 0 to phi_max = 85, modelled by the exact
interval integral. -/
def hestonP (S K T r kappa theta sigma rho v0 : ℝ) (j : ℕ) : ℝ :=
  0.5 + (1 / Real.pi) *
    ∫ phi in (0:ℝ)..85, integrand phi S K T r kappa theta sigma rho v0 j

/-- Shallow embedding of heston_price. -/
def heston_price (S K T r kappa theta sigma rho v0 : ℝ) (option_type : String) :
    Option ℝ :=
  if option_type = "call" then
    some (max (S * hestonP S K T r kappa theta sigma rho v0 1 -
      K * Real.exp (-r * T) * hestonP S K T r kappa theta sigma rho v0 2) 0)
  else if option_type = "put" then
    some (max (K * Real.exp (-r * T) * (1 - hestonP S K T r kappa theta sigma rho v0 2) -
      S * (1 - hestonP S K T r kappa theta sigma rho v0 1)) 0)
  else none

/-- Spec-side exercise probability P_j = 0.5 + (1/π)·∫₀^Φmax Re[e^{−i·u·ln K}
· phi(u)/(i·u)] du, with the integrand 0 at u = 0 and Φmax = 85. -/
def hestonProbSpec (S K T r kappa theta sigma rho v0 : ℝ) (j : ℕ) : ℝ :=
  0.5 + (1 / Real.pi) * ∫ u in (0:ℝ)..85,
    if u ≠ 0 then
      (Complex.exp (-Complex.I * ↑u * ↑(Real.log K)) *
        heston_cf u S T r kappa theta sigma rho v0 j / (Complex.I * ↑u)).re
    else 0

/-- Spec-side call combination S·P1 − K·e^(−rT)·P2 floored at 0. -/
def hestonCallSpec (S K T r kappa theta sigma rho v0 : ℝ) : ℝ :=
  max (S * hestonProbSpec S K T r kappa theta sigma rho v0 1 -
    K * Real.exp (-r * T) * hestonProbSpec S K T r kappa theta sigma rho v0 2) 0

/-- Spec-side put combination K·e^(−rT)·(1−P2) − S·(1−P1) floored at 0. -/
def hestonPutSpec (S K T r kappa theta sigma rho v0 : ℝ) : ℝ :=
  max (K * Real.exp (-r * T) * (1 - hestonProbSpec S K T r kappa theta sigma rho v0 2) -
    S * (1 - hestonProbSpec S K T r kappa theta sigma rho v0 1)) 0

/-! ## Quotes, calibration objective and post-processing pipeline -/

/-- One option quote row, as consumed by the Heston script. -/
structure Quote where
  spot_price : ℝ
  strike_price : ℝ
  T : ℝ
  option_type : String
  real_market_price : ℝ
  implied_volatility : ℝ

/-- Model of Python str.lower: lower-case every character. -/
def pyLower (s : String) : String := String.mk (s.data.map Char.toLower)

/-- Model of Python str.strip: drop whitespace from both ends. -/
def pyStrip (s : String) : String :=
  String.mk (((s.data.dropWhile Char.isWhitespace).reverse.dropWhile
    Char.isWhitespace).reverse)

/-- Shallow embedding of calibration_objective: the Python loop accumulates
error across rows; a None model price for a row with positive market price
would crash the loop, modelled by propagating none. -/
def calibration_objective (kappa theta rho v0 : ℝ) (data : List Quote)
    (r_fixed : ℝ) : Option ℝ :=
  data.foldlM (fun error q =>
    if q.real_market_price > 0 then
      (heston_price q.spot_price q.strike_price q.T r_fixed kappa theta
        q.implied_volatility rho v0 (pyStrip (pyLower q.option_type))).map
        (fun mp => error + ((mp - q.real_market_price) / q.real_market_price) ^ 2)
    else some error) 0

/-- The per-quote relative-squared-error term used in claim statements. -/
def quoteTerm (kappa theta rho v0 r_fixed : ℝ) (q : Quote) : ℝ :=
  (((heston_price q.spot_price q.strike_price q.T r_fixed kappa theta
      q.implied_volatility rho v0 (pyStrip (pyLower q.option_type))).getD 0 -
    q.real_market_price) / q.real_market_price) ^ 2

/-- A quote together with the Heston price column attached by the pipeline. -/
structure PricedQuote where
  quote : Quote
  hp : Option ℝ

/-- Insertion into a sorted list of reals. -/
def insertSorted (x : ℝ) : List ℝ → List ℝ
  | [] => [x]
  | y :: ys => if x ≤ y then x :: y :: ys else y :: insertSorted x ys

/-- Ascending sort of a list of reals (the order pandas quantile uses). -/
def sortR (xs : List ℝ) : List ℝ := xs.foldr insertSorted []

/-- The 97.5th percentile with linear interpolation, as computed by
pandas.Series.quantile(0.975). -/
def quantile975 (xs : List ℝ) : ℝ :=
  let ys := sortR xs
  let n := xs.length
  let h : ℝ := 0.975 * ((n : ℝ) - 1)
  let i : ℕ := ⌊h⌋₊
  let frac : ℝ := h - (i : ℝ)
  ys.getD i 0 + frac * (ys.getD (i + 1) (ys.getD i 0) - ys.getD i 0)

/-- Absolute Heston pricing error of a priced row; none when the price is
missing (NaN in the source). -/
def errOf (p : PricedQuote) : Option ℝ :=
  p.hp.map (fun v => |v - p.quote.real_market_price|)

/-- Line 119 of heston_model.py: price only rows with positive market price. -/
def priceStep (kappa theta rho v0 r_fixed : ℝ) (qs : List Quote) : List PricedQuote :=
  qs.map (fun q =>
    ⟨q, if q.real_market_price > 0 then
        heston_price q.spot_price q.strike_price q.T r_fixed kappa theta
          q.implied_volatility rho v0 q.option_type
      else none⟩)

/-- Lines 122-126: deep-OTM dampening by 0.95 for strike > 1.5 × spot. -/
def dampStep (rows : List PricedQuote) : List PricedQuote :=
  rows.map (fun p =>
    if p.quote.strike_price > p.quote.spot_price * 1.5 then
      ⟨p.quote, p.hp.map (fun v => v * 0.95)⟩
    else p)

/-- Lines 128-130: keep rows whose error is strictly below the 97.5th
percentile of the error column; a missing (NaN) error fails the comparison. -/
def outlierStep (rows : List PricedQuote) : List PricedQuote :=
  rows.filter (fun p => match errOf p with
    | some e => decide (e < quantile975 (rows.filterMap errOf))
    | none => false)

/-- Lines 132-133: drop rows lacking a computed Heston price. -/
def dropnaStep (rows : List PricedQuote) : List PricedQuote :=
  rows.filter (fun p => p.hp.isSome)

lemma stdGauss_eq (t : ℝ) :
    stdGauss t = Real.exp (-(1 / 2) * t ^ 2) / Real.sqrt (2 * Real.pi) := by
  unfold stdGauss
  congr 1
  ring_nf

lemma stdGauss_nonneg (t : ℝ) : 0 ≤ stdGauss t := by
  unfold stdGauss
  positivity

lemma stdGauss_even (t : ℝ) : stdGauss (-t) = stdGauss t := by
  unfold stdGauss
  rw [neg_pow]
  norm_num

lemma integrable_stdGauss : Integrable stdGauss := by
  have h : Integrable fun t : ℝ => Real.exp (-(1 / 2) * t ^ 2) / Real.sqrt (2 * Real.pi) :=
    (integrable_exp_neg_mul_sq (by norm_num : (0:ℝ) < 1 / 2)).div_const _
  refine h.congr ?_
  filter_upwards with t
  rw [stdGauss_eq]

lemma sqrt_two_pi_pos : 0 < Real.sqrt (2 * Real.pi) :=
  Real.sqrt_pos.mpr (by positivity)

lemma integral_stdGauss : ∫ t, stdGauss t = 1 := by
  have h : ∫ t, stdGauss t
      = (∫ t : ℝ, Real.exp (-(1 / 2) * t ^ 2)) / Real.sqrt (2 * Real.pi) := by
    rw [← integral_div]
    congr 1
    funext t
    rw [stdGauss_eq]
  rw [h, integral_gaussian]
  have h2 : Real.pi / (1 / 2) = 2 * Real.pi := by ring
  rw [h2, div_self (ne_of_gt sqrt_two_pi_pos)]

/-- The upper tail of the normal distribution. -/
lemma normCdf_neg_eq_tail (x : ℝ) : normCdf (-x) = ∫ t in Ioi x, stdGauss t := by
  unfold normCdf
  have h : ∫ t in Iic (-x), stdGauss t = ∫ t in Iic (-x), stdGauss (-t) := by
    congr 1
    funext t
    rw [stdGauss_even]
  rw [h, integral_comp_neg_Iic, neg_neg]

/-- Symmetry of the normal CDF. -/
theorem normCdf_add_neg (x : ℝ) : normCdf x + normCdf (-x) = 1 := by
  rw [normCdf_neg_eq_tail]
  unfold normCdf
  rw [intervalIntegral.integral_Iic_add_Ioi integrable_stdGauss.integrableOn
    integrable_stdGauss.integrableOn, integral_stdGauss]

theorem normCdf_zero : normCdf 0 = 1 / 2 := by
  have h := normCdf_add_neg 0
  rw [neg_zero] at h
  linarith

theorem normCdf_mono : Monotone normCdf := by
  intro x y hxy
  exact setIntegral_mono_set integrable_stdGauss.integrableOn
    (Filter.Eventually.of_forall stdGauss_nonneg)
    (HasSubset.Subset.eventuallyLE (Iic_subset_Iic.mpr hxy))

lemma integrableOn_gaussKernel (s : Set ℝ) :
    IntegrableOn (fun t : ℝ => Real.exp (-t ^ 2 / 2)) s := by
  have h : Integrable fun t : ℝ => Real.exp (-t ^ 2 / 2) := by
    refine (integrable_exp_neg_mul_sq (by norm_num : (0:ℝ) < 1 / 2)).congr ?_
    filter_upwards with t
    congr 1
    ring
  exact h.integrableOn

lemma integrableOn_mulGaussKernel (s : Set ℝ) :
    IntegrableOn (fun t : ℝ => t * Real.exp (-t ^ 2 / 2)) s := by
  have h : Integrable fun t : ℝ => t * Real.exp (-t ^ 2 / 2) := by
    refine (integrable_mul_exp_neg_mul_sq (by norm_num : (0:ℝ) < 1 / 2)).congr ?_
    filter_upwards with t
    congr 2
    ring
  exact h.integrableOn

lemma tendsto_gaussKernel_atTop :
    Tendsto (fun t : ℝ => Real.exp (-t ^ 2 / 2)) atTop (nhds 0) := by
  have hsq : Tendsto (fun t : ℝ => t ^ 2 / 2) atTop atTop :=
    (tendsto_pow_atTop (two_ne_zero)).atTop_div_const (by norm_num)
  have h := Real.tendsto_exp_neg_atTop_nhds_zero.comp hsq
  refine h.congr fun t => ?_
  simp [Function.comp, neg_div]

/-- The first-moment tail integral of the Gaussian kernel. -/
lemma integral_Ioi_mulGaussKernel (x : ℝ) :
    ∫ t in Ioi x, t * Real.exp (-t ^ 2 / 2) = Real.exp (-x ^ 2 / 2) := by
  have hderiv : ∀ t ∈ Ici x, HasDerivAt (fun s : ℝ => -Real.exp (-s ^ 2 / 2))
      (t * Real.exp (-t ^ 2 / 2)) t := by
    intro t _
    have hu : HasDerivAt (fun s : ℝ => -s ^ 2 / 2) (-t) t := by
      have h1 : HasDerivAt (fun s : ℝ => s ^ 2) (2 * t) t := by
        simpa using hasDerivAt_pow 2 t
      have h2 := (h1.neg).div_const 2
      convert h2 using 1
      ring
    have := (hu.exp).neg
    convert this using 1
    ring
  have htend : Tendsto (fun s : ℝ => -Real.exp (-s ^ 2 / 2)) atTop (nhds 0) := by
    have := tendsto_gaussKernel_atTop.neg
    simpa using this
  have h := integral_Ioi_of_hasDerivAt_of_tendsto' hderiv
    (integrableOn_mulGaussKernel (Ioi x)) htend
  rw [h]
  ring

/-- Mills-ratio upper bound for the normal tail. -/
theorem normCdf_neg_le (x : ℝ) (hx : 0 < x) :
    normCdf (-x) ≤ Real.exp (-x ^ 2 / 2) / (x * Real.sqrt (2 * Real.pi)) := by
  rw [normCdf_neg_eq_tail]
  have hstep : ∫ t in Ioi x, stdGauss t
      ≤ ∫ t in Ioi x, (t / x) * Real.exp (-t ^ 2 / 2) / Real.sqrt (2 * Real.pi) := by
    refine setIntegral_mono_on ?_ ?_ measurableSet_Ioi ?_
    · exact integrable_stdGauss.integrableOn
    · have h := ((integrableOn_mulGaussKernel (Ioi x)).div_const x).div_const
        (Real.sqrt (2 * Real.pi))
      refine IntegrableOn.congr_fun h (fun t _ => ?_) measurableSet_Ioi
      ring
    · intro t ht
      rw [stdGauss]
      have h1 : (1 : ℝ) ≤ t / x := (one_le_div hx).mpr (le_of_lt ht)
      have h2 : 0 ≤ Real.exp (-t ^ 2 / 2) / Real.sqrt (2 * Real.pi) := by positivity
      calc Real.exp (-t ^ 2 / 2) / Real.sqrt (2 * Real.pi)
          = 1 * (Real.exp (-t ^ 2 / 2) / Real.sqrt (2 * Real.pi)) := by ring
        _ ≤ (t / x) * (Real.exp (-t ^ 2 / 2) / Real.sqrt (2 * Real.pi)) :=
            mul_le_mul_of_nonneg_right h1 h2
        _ = (t / x) * Real.exp (-t ^ 2 / 2) / Real.sqrt (2 * Real.pi) := by ring
  have heval : ∫ t in Ioi x, (t / x) * Real.exp (-t ^ 2 / 2) / Real.sqrt (2 * Real.pi)
      = Real.exp (-x ^ 2 / 2) / (x * Real.sqrt (2 * Real.pi)) := by
    have h : (fun t : ℝ => (t / x) * Real.exp (-t ^ 2 / 2) / Real.sqrt (2 * Real.pi))
        = fun t : ℝ => (t * Real.exp (-t ^ 2 / 2)) * (1 / (x * Real.sqrt (2 * Real.pi))) := by
      funext t
      field_simp
    rw [h, integral_mul_right, integral_Ioi_mulGaussKernel, mul_one_div]
  rw [← heval]
  exact hstep

lemma integrableOn_millsKernel (x : ℝ) (hx : 1 ≤ x) :
    IntegrableOn (fun t : ℝ => (1 - 3 / t ^ 4) * Real.exp (-t ^ 2 / 2)) (Ioi x) := by
  refine Integrable.mono' ((integrableOn_gaussKernel (Ioi x)).const_mul 3) ?_ ?_
  · have hc : ContinuousOn (fun t : ℝ => (1 - 3 / t ^ 4) * Real.exp (-t ^ 2 / 2)) (Ioi x) := by
      have ht : ∀ t ∈ Ioi x, t ^ 4 ≠ 0 := fun t (ht : x < t) =>
        pow_ne_zero 4 (ne_of_gt (lt_of_lt_of_le one_pos hx |>.trans ht))
      exact (continuousOn_const.sub (continuousOn_const.div
        ((continuous_pow 4).continuousOn) ht)).mul
        ((Real.continuous_exp.comp (by continuity)).continuousOn)
    exact hc.aestronglyMeasurable measurableSet_Ioi
  · refine (ae_restrict_iff' measurableSet_Ioi).mpr (Filter.Eventually.of_forall ?_)
    intro t (ht : x < t)
    have ht1 : 1 ≤ t := hx.trans (le_of_lt ht)
    have ht2 : 1 ≤ t ^ 2 := by nlinarith
    have ht4 : 1 ≤ t ^ 4 := by nlinarith
    have habs : |1 - 3 / t ^ 4| ≤ 3 := by
      have h0 : 0 < 3 / t ^ 4 := by positivity
      have h1 : 3 / t ^ 4 ≤ 3 := by
        rw [div_le_iff (by positivity)]
        nlinarith
      rw [abs_le]
      exact ⟨by linarith, by linarith⟩
    rw [norm_mul, Real.norm_eq_abs, Real.norm_eq_abs,
      abs_of_nonneg (Real.exp_pos _).le]
    exact mul_le_mul_of_nonneg_right habs (Real.exp_pos _).le

set_option maxHeartbeats 1000000 in
/-- Closed form for the Mills-ratio minorant tail integral. -/
lemma integral_Ioi_millsKernel (x : ℝ) (hx : 1 ≤ x) :
    ∫ t in Ioi x, (1 - 3 / t ^ 4) * Real.exp (-t ^ 2 / 2)
      = (1 / x - 1 / x ^ 3) * Real.exp (-x ^ 2 / 2) := by
  have hx0 : 0 < x := lt_of_lt_of_le one_pos hx
  have hderiv : ∀ t ∈ Ici x,
      HasDerivAt (fun s : ℝ => -((s⁻¹ - (s ^ 3)⁻¹) * Real.exp (-s ^ 2 / 2)))
      ((1 - 3 / t ^ 4) * Real.exp (-t ^ 2 / 2)) t := by
    intro t (ht : x ≤ t)
    have ht0 : 0 < t := lt_of_lt_of_le hx0 ht
    have htne : t ≠ 0 := ne_of_gt ht0
    have h1 : HasDerivAt (fun s : ℝ => s⁻¹) (-(t ^ 2)⁻¹) t := hasDerivAt_inv htne
    have h2 := (hasDerivAt_pow 3 t).inv (pow_ne_zero 3 htne)
    have hu : HasDerivAt (fun s : ℝ => -s ^ 2 / 2) (-t) t := by
      have hp : HasDerivAt (fun s : ℝ => s ^ 2) (2 * t) t := by
        simpa using hasDerivAt_pow 2 t
      have := (hp.neg).div_const 2
      convert this using 1
      ring
    have hE : HasDerivAt (fun s : ℝ => Real.exp (-s ^ 2 / 2))
        (Real.exp (-t ^ 2 / 2) * (-t)) t := hu.exp
    have hD := (((h1.sub h2).mul hE).neg)
    convert hD using 1
    generalize Real.exp (-t ^ 2 / 2) = E
    field_simp
    ring
  have htend : Tendsto (fun s : ℝ => -((s⁻¹ - (s ^ 3)⁻¹) * Real.exp (-s ^ 2 / 2)))
      atTop (nhds 0) := by
    have hinv : Tendsto (fun s : ℝ => s⁻¹ - (s ^ 3)⁻¹) atTop (nhds 0) := by
      have h3 : Tendsto (fun s : ℝ => (s ^ 3)⁻¹) atTop (nhds 0) :=
        (tendsto_pow_atTop (three_ne_zero)).inv_tendsto_atTop
      simpa using tendsto_inv_atTop_zero.sub h3
    have := (hinv.mul tendsto_gaussKernel_atTop).neg
    simpa using this
  have h := integral_Ioi_of_hasDerivAt_of_tendsto' hderiv
    (integrableOn_millsKernel x hx) htend
  rw [h]
  have : x⁻¹ - (x ^ 3)⁻¹ = 1 / x - 1 / x ^ 3 := by
    field_simp
  rw [← this]
  ring

/-- Mills-ratio lower bound for the normal tail. -/
theorem le_normCdf_neg (x : ℝ) (hx : 1 ≤ x) :
    (1 / x - 1 / x ^ 3) * Real.exp (-x ^ 2 / 2) / Real.sqrt (2 * Real.pi)
      ≤ normCdf (-x) := by
  rw [normCdf_neg_eq_tail]
  have hstep : ∫ t in Ioi x, (1 - 3 / t ^ 4) * Real.exp (-t ^ 2 / 2)
        / Real.sqrt (2 * Real.pi) ≤ ∫ t in Ioi x, stdGauss t := by
    refine setIntegral_mono_on ?_ ?_ measurableSet_Ioi ?_
    · exact (integrableOn_millsKernel x hx).div_const _
    · exact integrable_stdGauss.integrableOn
    · intro t (ht : x < t)
      rw [stdGauss]
      refine (div_le_div_right sqrt_two_pi_pos).mpr ?_
      have h0 : 0 ≤ (3 / t ^ 4) * Real.exp (-t ^ 2 / 2) :=
        mul_nonneg (by positivity) (Real.exp_pos _).le
      nlinarith [Real.exp_pos (-t ^ 2 / 2)]
  have heval : ∫ t in Ioi x, (1 - 3 / t ^ 4) * Real.exp (-t ^ 2 / 2)
        / Real.sqrt (2 * Real.pi)
      = (1 / x - 1 / x ^ 3) * Real.exp (-x ^ 2 / 2) / Real.sqrt (2 * Real.pi) := by
    rw [integral_div, integral_Ioi_millsKernel x hx]
  rw [← heval]
  exact hstep

/-! ### Concrete numerical tail estimates -/

lemma sqrt_two_pi_ge : (2.5 : ℝ) ≤ Real.sqrt (2 * Real.pi) := by
  have h1 : (6.25 : ℝ) ≤ 2 * Real.pi := by nlinarith [Real.pi_gt_3141592]
  have h2 : (2.5 : ℝ) = Real.sqrt 6.25 := by
    rw [show (6.25 : ℝ) = 2.5 ^ 2 by norm_num, Real.sqrt_sq (by norm_num)]
  rw [h2]
  exact Real.sqrt_le_sqrt h1

lemma exp_one_point_five_ge : (2.5 : ℝ) ≤ Real.exp 1.5 := by
  have := Real.add_one_le_exp (1.5 : ℝ)
  linarith

lemma exp_four_point_five_ge : (15.625 : ℝ) ≤ Real.exp 4.5 := by
  have h : Real.exp (4.5 : ℝ) = Real.exp 1.5 ^ (3 : ℕ) := by
    rw [← Real.exp_nat_mul]
    norm_num
  rw [h, show (15.625 : ℝ) = 2.5 ^ (3 : ℕ) by norm_num]
  exact pow_le_pow_left (by norm_num) exp_one_point_five_ge 3

/-- The deep-OTM put floor condition holds at d2 = 3. -/
theorem normCdf_neg_three_lt : normCdf (-3) < 0.01 := by
  have h1 := normCdf_neg_le 3 (by norm_num)
  have h2 : Real.exp (-(3 : ℝ) ^ 2 / 2) = Real.exp (-4.5) := by norm_num
  have h3 : Real.exp (-(4.5 : ℝ)) ≤ (15.625 : ℝ)⁻¹ := by
    rw [Real.exp_neg]
    exact inv_le_inv_of_le (by norm_num) exp_four_point_five_ge
  have h4 : (7.5 : ℝ) ≤ 3 * Real.sqrt (2 * Real.pi) := by nlinarith [sqrt_two_pi_ge]
  have h5 : Real.exp (-(3 : ℝ) ^ 2 / 2) / (3 * Real.sqrt (2 * Real.pi))
      ≤ (15.625 : ℝ)⁻¹ / 7.5 := by
    rw [h2]
    exact div_le_div (by norm_num) h3 (by norm_num) h4
  have : ((15.625 : ℝ)⁻¹ / 7.5) < 0.01 := by norm_num
  linarith

/-- At the floored-put counterexample the discounted tail at d2 strictly
dominates the tail at d1, so the closed-form put value is strictly positive. -/
theorem normCdf_neg_four_lt : normCdf (-4) < Real.exp (-3.5) * normCdf (-3) := by
  have hup := normCdf_neg_le 4 (by norm_num)
  have hlo := le_normCdf_neg 3 (by norm_num)
  have hmulpos : (0 : ℝ) < Real.exp (-3.5) := Real.exp_pos _
  have hkey : Real.exp (-(4 : ℝ) ^ 2 / 2) / (4 * Real.sqrt (2 * Real.pi))
      < Real.exp (-3.5) *
        ((1 / 3 - 1 / (3 : ℝ) ^ 3) * Real.exp (-(3 : ℝ) ^ 2 / 2) / Real.sqrt (2 * Real.pi)) := by
    have he : Real.exp (-3.5) * Real.exp (-(3 : ℝ) ^ 2 / 2) = Real.exp (-(4 : ℝ) ^ 2 / 2) := by
      rw [← Real.exp_add]
      norm_num
    have hform : Real.exp (-3.5) *
        ((1 / 3 - 1 / (3 : ℝ) ^ 3) * Real.exp (-(3 : ℝ) ^ 2 / 2) / Real.sqrt (2 * Real.pi))
        = (8 / 27) * (Real.exp (-(4 : ℝ) ^ 2 / 2) / Real.sqrt (2 * Real.pi)) := by
      rw [← he]
      field_simp
      try ring
    rw [hform]
    have hpos : 0 < Real.exp (-(4 : ℝ) ^ 2 / 2) / Real.sqrt (2 * Real.pi) := by
      positivity
    have h14 : Real.exp (-(4 : ℝ) ^ 2 / 2) / (4 * Real.sqrt (2 * Real.pi))
        = (1 / 4) * (Real.exp (-(4 : ℝ) ^ 2 / 2) / Real.sqrt (2 * Real.pi)) := by
      field_simp
      try ring
    rw [h14]
    nlinarith
  calc normCdf (-4) ≤ Real.exp (-(4 : ℝ) ^ 2 / 2) / (4 * Real.sqrt (2 * Real.pi)) := hup
    _ < Real.exp (-3.5) *
        ((1 / 3 - 1 / (3 : ℝ) ^ 3) * Real.exp (-(3 : ℝ) ^ 2 / 2) / Real.sqrt (2 * Real.pi)) :=
        hkey
    _ ≤ Real.exp (-3.5) * normCdf (-3) := mul_le_mul_of_nonneg_left hlo hmulpos.le

/-! ## Black-Scholes branch lemmas -/

lemma bs_valid_guard {S K T sigma : ℝ} (hS : 0 < S) (hK : 0 < K) (hT : 0 < T)
    (hs : 0 < sigma) : ¬(S ≤ 0 ∨ K ≤ 0 ∨ T ≤ 0 ∨ sigma ≤ 0) := by
  push_neg
  exact ⟨hS, hK, hT, hs⟩

lemma bs_sigma_sqrt_pos {T sigma : ℝ} (hT : 0 < T) (hs : 0 < sigma) :
    0 < sigma * Real.sqrt T := mul_pos hs (Real.sqrt_pos.mpr hT)

lemma call_ne_put : ("call" : String) ≠ "put" := by decide

lemma black_scholes_call_eq {S K T r sigma : ℝ} (hS : 0 < S) (hK : 0 < K)
    (hT : 0 < T) (hs : 0 < sigma) :
    black_scholes S K T r sigma "call" = some (bsCallValue S K T r sigma) := by
  unfold black_scholes
  rw [if_neg (bs_valid_guard hS hK hT hs),
    if_neg (not_le.mpr (bs_sigma_sqrt_pos hT hs)),
    if_neg (fun h => call_ne_put (And.left h)), if_pos rfl]

lemma black_scholes_put_eq {S K T r sigma : ℝ} (hS : 0 < S) (hK : 0 < K)
    (hT : 0 < T) (hs : 0 < sigma)
    (hfl : 0.01 ≤ normCdf (-bs_d2 S K T r sigma)) :
    black_scholes S K T r sigma "put" = some (bsPutValue S K T r sigma) := by
  unfold black_scholes
  rw [if_neg (bs_valid_guard hS hK hT hs),
    if_neg (not_le.mpr (bs_sigma_sqrt_pos hT hs)),
    if_neg (fun h => absurd hfl (not_le.mpr h.2)),
    if_neg (fun h => call_ne_put (Eq.symm h)), if_pos rfl]

lemma black_scholes_put_floor {S K T r sigma : ℝ} (hS : 0 < S) (hK : 0 < K)
    (hT : 0 < T) (hs : 0 < sigma)
    (hfl : normCdf (-bs_d2 S K T r sigma) < 0.01) :
    black_scholes S K T r sigma "put" = some 0 := by
  unfold black_scholes
  rw [if_neg (bs_valid_guard hS hK hT hs),
    if_neg (not_le.mpr (bs_sigma_sqrt_pos hT hs)), if_pos ⟨rfl, hfl⟩]

lemma black_scholes_invalid {S K T r sigma : ℝ}
    (h : S ≤ 0 ∨ K ≤ 0 ∨ T ≤ 0 ∨ sigma ≤ 0) (ot : String) :
    black_scholes S K T r sigma ot = none := by
  unfold black_scholes
  rw [if_pos h]

lemma black_scholes_bad_kind {S K T r sigma : ℝ} {ot : String}
    (h1 : ot ≠ "call") (h2 : ot ≠ "put") :
    black_scholes S K T r sigma ot = none := by
  unfold black_scholes
  rw [if_neg (fun h => h2 (And.left h)), if_neg h1, if_neg h2]
  split_ifs <;> rfl

lemma heston_price_bad_kind {S K T r kappa theta sigma rho v0 : ℝ} {ot : String}
    (h1 : ot ≠ "call") (h2 : ot ≠ "put") :
    heston_price S K T r kappa theta sigma rho v0 ot = none := by
  unfold heston_price
  rw [if_neg h1, if_neg h2]

/-! ## Concrete-point evaluations for the floored-put scenario -/

lemma bs_d1_cx : bs_d1 1 1 1 3.5 1 = 4 := by
  unfold bs_d1
  rw [div_one, Real.log_one, Real.sqrt_one]
  norm_num

lemma bs_d2_cx : bs_d2 1 1 1 3.5 1 = 3 := by
  unfold bs_d2
  rw [bs_d1_cx, Real.sqrt_one]
  norm_num

lemma bs_d2_parity_point : bs_d2 1 1 1 0 1 = -0.5 := by
  unfold bs_d2 bs_d1
  rw [div_one, Real.log_one, Real.sqrt_one]
  norm_num

lemma bs_floored_point : black_scholes 1 1 1 3.5 1 "put" = some 0 :=
  black_scholes_put_floor (by norm_num) (by norm_num) (by norm_num) (by norm_num)
    (by rw [bs_d2_cx]; exact normCdf_neg_three_lt)

lemma bsPutValue_cx_pos : 0 < bsPutValue 1 1 1 3.5 1 := by
  unfold bsPutValue
  rw [bs_d1_cx, bs_d2_cx]
  have h := normCdf_neg_four_lt
  have he : Real.exp (-(3.5 : ℝ) * 1) = Real.exp (-3.5) := by norm_num
  rw [he]
  nlinarith

/-! ## Claim C1 -/

/-- C1 (amended): for S,K,T,σ > 0, black_scholes computes d1 and d2 by the spec
formulas; it returns S·Φ(d1) − K·e^(−rT)·Φ(d2) for a call; for a put it returns
K·e^(−rT)·Φ(−d2) − S·Φ(−d1) provided Φ(−d2) ≥ 0.01, and 0 when Φ(−d2) < 0.01
(the deep-OTM put floor of line 50). -/
theorem C1_black_scholes_formula (S K T r sigma : ℝ) (hS : 0 < S) (hK : 0 < K)
    (hT : 0 < T) (hs : 0 < sigma) :
    black_scholes S K T r sigma "call" = some (bsCallValue S K T r sigma)
    ∧ (0.01 ≤ normCdf (-bs_d2 S K T r sigma) →
        black_scholes S K T r sigma "put" = some (bsPutValue S K T r sigma))
    ∧ (normCdf (-bs_d2 S K T r sigma) < 0.01 →
        black_scholes S K T r sigma "put" = some 0) :=
  ⟨black_scholes_call_eq hS hK hT hs,
   fun h => black_scholes_put_eq hS hK hT hs h,
   fun h => black_scholes_put_floor hS hK hT hs h⟩

/-- Witness for C1 at S=K=T=σ=1, r=0. -/
theorem C1_witness :
    black_scholes 1 1 1 0 1 "call" = some (bsCallValue 1 1 1 0 1) :=
  (C1_black_scholes_formula 1 1 1 0 1 (by norm_num) (by norm_num) (by norm_num)
    (by norm_num)).1

/-- C1 counterexample: at S=K=1, T=1, r=3.5, σ=1 the put satisfies
Φ(−d2) = Φ(−3) < 0.01, so the source returns 0, while the claimed closed form
K·e^(−rT)·Φ(−d2) − S·Φ(−d1) is strictly positive. -/
theorem C1_counterexample :
    black_scholes 1 1 1 3.5 1 "put" ≠ some (bsPutValue 1 1 1 3.5 1) := by
  rw [bs_floored_point]
  intro h
  exact absurd (Option.some.inj h).symm (ne_of_gt bsPutValue_cx_pos)

/-! ## Claim C5 -/

/-- C5 (amended): put-call parity call − put = S − K·e^(−rT) holds for every
valid input on which the deep-OTM put floor does not trigger. -/
theorem C5_put_call_parity (S K T r sigma : ℝ) (hS : 0 < S) (hK : 0 < K)
    (hT : 0 < T) (hs : 0 < sigma)
    (hfl : 0.01 ≤ normCdf (-bs_d2 S K T r sigma)) :
    ∃ c p, black_scholes S K T r sigma "call" = some c
      ∧ black_scholes S K T r sigma "put" = some p
      ∧ c - p = S - K * Real.exp (-r * T) := by
  refine ⟨bsCallValue S K T r sigma, bsPutValue S K T r sigma,
    black_scholes_call_eq hS hK hT hs, black_scholes_put_eq hS hK hT hs hfl, ?_⟩
  unfold bsCallValue bsPutValue
  have h1 := normCdf_add_neg (bs_d1 S K T r sigma)
  have h2 := normCdf_add_neg (bs_d2 S K T r sigma)
  linear_combination S * h1 - K * Real.exp (-r * T) * h2

/-- Witness for C5 at S=K=T=σ=1, r=0 (floor off since Φ(0.5) ≥ 1/2). -/
theorem C5_witness :
    ∃ c p, black_scholes 1 1 1 0 1 "call" = some c
      ∧ black_scholes 1 1 1 0 1 "put" = some p
      ∧ c - p = 1 - 1 * Real.exp (-0 * 1) :=
  C5_put_call_parity 1 1 1 0 1 (by norm_num) (by norm_num) (by norm_num)
    (by norm_num)
    (by rw [bs_d2_parity_point]
        have h := normCdf_mono (by norm_num : (0:ℝ) ≤ 0.5)
        rw [normCdf_zero] at h
        have h05 : normCdf (-(-0.5 : ℝ)) = normCdf 0.5 := by norm_num
        rw [h05]
        linarith)

/-- C5 counterexample: at S=K=1, T=1, r=3.5, σ=1 the put is floored to 0 and
parity fails: call − put ≠ S − K·e^(−rT). -/
theorem C5_counterexample :
    (black_scholes 1 1 1 3.5 1 "call").getD 0
      - (black_scholes 1 1 1 3.5 1 "put").getD 0
      ≠ 1 - 1 * Real.exp (-3.5 * 1) := by
  rw [black_scholes_call_eq (by norm_num) (by norm_num) (by norm_num) (by norm_num),
    bs_floored_point]
  simp only [Option.getD_some]
  unfold bsCallValue
  rw [bs_d1_cx, bs_d2_cx]
  intro h
  have he : Real.exp (-(3.5:ℝ) * 1) = Real.exp (-3.5) := by norm_num
  rw [he] at h
  have h1 := normCdf_add_neg 4
  have h2 := normCdf_add_neg 3
  have h2e : Real.exp (-3.5) * normCdf 3 + Real.exp (-3.5) * normCdf (-3)
      = Real.exp (-3.5) := by linear_combination Real.exp (-3.5) * h2
  have hx := normCdf_neg_four_lt
  linarith

/-! ## Claim C6 -/

/-- C6 (confirmed): for valid inputs, a put whose in-the-money probability
Φ(−d2) is below 0.01 is priced exactly 0, and the floor never applies to a
call: a call always receives the closed-form value. -/
theorem C6_put_floor (S K T r sigma : ℝ) (hS : 0 < S) (hK : 0 < K) (hT : 0 < T)
    (hs : 0 < sigma) :
    (normCdf (-bs_d2 S K T r sigma) < 0.01 →
      black_scholes S K T r sigma "put" = some 0)
    ∧ black_scholes S K T r sigma "call" = some (bsCallValue S K T r sigma) :=
  ⟨fun h => black_scholes_put_floor hS hK hT hs h, black_scholes_call_eq hS hK hT hs⟩

/-- Witness for C6 at S=K=1, T=1, r=3.5, σ=1, where Φ(−d2) = Φ(−3) < 0.01. -/
theorem C6_witness : black_scholes 1 1 1 3.5 1 "put" = some 0 :=
  (C6_put_floor 1 1 1 3.5 1 (by norm_num) (by norm_num) (by norm_num)
    (by norm_num)).1 (by rw [bs_d2_cx]; exact normCdf_neg_three_lt)

/-! ## Claim C7 -/

/-- C7 (confirmed): a non-positive S, K, T or σ makes black_scholes return no
price, and an unrecognized option kind makes both black_scholes and
heston_price return no price. -/
theorem C7_invalid_input (S K T r sigma kappa theta rho v0 : ℝ) (kind : String) :
    (S ≤ 0 ∨ K ≤ 0 ∨ T ≤ 0 ∨ sigma ≤ 0 → black_scholes S K T r sigma kind = none)
    ∧ (kind ≠ "call" → kind ≠ "put" →
        black_scholes S K T r sigma kind = none
        ∧ heston_price S K T r kappa theta sigma rho v0 kind = none) :=
  ⟨fun h => black_scholes_invalid h kind,
   fun h1 h2 => ⟨black_scholes_bad_kind h1 h2, heston_price_bad_kind h1 h2⟩⟩

/-- Witness for C7: a negative spot and an unknown kind both yield none. -/
theorem C7_witness :
    black_scholes (-1) 1 1 0 1 "call" = none
    ∧ (black_scholes 1 1 1 0 1 "straddle" = none
      ∧ heston_price 1 1 1 0 2 0.04 1 (-0.7) 0.04 "straddle" = none) :=
  ⟨(C7_invalid_input (-1) 1 1 0 1 2 0.04 (-0.7) 0.04 "call").1
      (Or.inl (by norm_num)),
   (C7_invalid_input 1 1 1 0 1 2 0.04 (-0.7) 0.04 "straddle").2
      (by decide) (by decide)⟩

/-! ## Claim C2 -/

/-- C2 (confirmed): for branch j ∈ {1,2} the characteristic function uses
b = κ − ρσ with weight +0.5 when j = 1 and b = κ with weight −0.5 when j = 2,
and returns exp(C + D·v0 + i·u·ln S) with the spec's four formulas for
d, g, C, D. -/
theorem C2_heston_cf_branches (u S T r kappa theta sigma rho v0 : ℝ) (j : ℕ)
    (hu : u ≠ 0) (hS : 0 < S) (hT : 0 < T) (hj : j = 1 ∨ j = 2) :
    heston_cf u S T r kappa theta sigma rho v0 j =
      (if j = 1 then hestonCfSpecOne u S T r kappa theta sigma rho v0
       else hestonCfSpecTwo u S T r kappa theta sigma rho v0) := by
  rcases hj with rfl | rfl
  · norm_num [heston_cf, hestonCfSpecOne]
  · norm_num [heston_cf, hestonCfSpecTwo]

/-- Witness for C2 at u=1, S=T=1, r=0, (κ,θ,σ,ρ,v0)=(2,0.04,1,−0.7,0.04), j=1. -/
theorem C2_witness :
    heston_cf 1 1 1 0 2 0.04 1 (-0.7) 0.04 1 =
      (if 1 = 1 then hestonCfSpecOne 1 1 1 0 2 0.04 1 (-0.7) 0.04
       else hestonCfSpecTwo 1 1 1 0 2 0.04 1 (-0.7) 0.04) :=
  C2_heston_cf_branches 1 1 1 0 2 0.04 1 (-0.7) 0.04 1 (by norm_num)
    (by norm_num) (by norm_num) (Or.inl rfl)

/-! ## Claim C3 -/

/-- C3 (confirmed): heston_price returns max(S·P1 − K·e^(−rT)·P2, 0) for a
call and max(K·e^(−rT)·(1−P2) − S·(1−P1), 0) for a put, with P_j the spec's
integral probabilities, and every returned price is nonnegative. -/
theorem C3_heston_price_form (S K T r kappa theta sigma rho v0 : ℝ)
    (kind : String) :
    heston_price S K T r kappa theta sigma rho v0 "call"
        = some (hestonCallSpec S K T r kappa theta sigma rho v0)
    ∧ heston_price S K T r kappa theta sigma rho v0 "put"
        = some (hestonPutSpec S K T r kappa theta sigma rho v0)
    ∧ (∀ p, heston_price S K T r kappa theta sigma rho v0 kind = some p → 0 ≤ p) := by
  refine ⟨rfl, rfl, ?_⟩
  intro p hp
  unfold heston_price at hp
  split_ifs at hp
  all_goals
    first
      | exact (Option.some.inj hp) ▸ le_max_right _ _
      | exact Option.noConfusion hp

/-- Witness for C3: the returned call price at a concrete input is ≥ 0. -/
theorem C3_witness :
    0 ≤ (heston_price 1 1 1 0 2 0.04 1 (-0.7) 0.04 "call").getD 0 := by
  have h := C3_heston_price_form 1 1 1 0 2 0.04 1 (-0.7) 0.04 "call"
  rw [h.1, Option.getD_some]
  exact h.2.2 _ h.1

/-! ## Claim C4 -/

lemma heston_some_of_valid {S K T r kappa theta sigma rho v0 : ℝ} {ot : String}
    (h : ot = "call" ∨ ot = "put") :
    ∃ v, heston_price S K T r kappa theta sigma rho v0 ot = some v := by
  rcases h with rfl | rfl
  · exact ⟨_, rfl⟩
  · exact ⟨_, rfl⟩

lemma calibration_fold (kappa theta rho v0 r_fixed : ℝ) (l : List Quote) :
    ∀ acc : ℝ,
      (∀ q ∈ l, q.real_market_price > 0 →
        pyStrip (pyLower q.option_type) = "call" ∨ pyStrip (pyLower q.option_type) = "put") →
      l.foldlM (fun error q =>
          if q.real_market_price > 0 then
            (heston_price q.spot_price q.strike_price q.T r_fixed kappa theta
              q.implied_volatility rho v0 (pyStrip (pyLower q.option_type))).map
              (fun mp => error + ((mp - q.real_market_price) / q.real_market_price) ^ 2)
          else some error) acc
        = some (acc + ((l.filter fun q => decide (q.real_market_price > 0)).map
            (quoteTerm kappa theta rho v0 r_fixed)).sum) := by
  induction l with
  | nil => intro acc _; simp
  | cons q l ih =>
    intro acc hv
    rw [List.foldlM_cons]
    by_cases hm : q.real_market_price > 0
    · obtain ⟨v, hv'⟩ := @heston_some_of_valid q.spot_price q.strike_price q.T
        r_fixed kappa theta q.implied_volatility rho v0 _
        (hv q (List.mem_cons_self q l) hm)
      rw [if_pos hm, hv', Option.map_some']
      show List.foldlM _
        (acc + ((v - q.real_market_price) / q.real_market_price) ^ 2) l = _
      rw [ih _ (fun q' hq' => hv q' (List.mem_cons_of_mem _ hq'))]
      rw [List.filter_cons_of_pos (p := fun q : Quote => decide (q.real_market_price > 0))
        (decide_eq_true hm), List.map_cons, List.sum_cons]
      have ht : quoteTerm kappa theta rho v0 r_fixed q
          = ((v - q.real_market_price) / q.real_market_price) ^ 2 := by
        unfold quoteTerm
        rw [hv', Option.getD_some]
      rw [ht]
      congr 1
      ring
    · rw [if_neg hm]
      show List.foldlM _ acc l = _
      rw [ih _ (fun q' hq' => hv q' (List.mem_cons_of_mem _ hq'))]
      rw [List.filter_cons_of_neg (p := fun q : Quote => decide (q.real_market_price > 0))
        (by simpa using hm)]

/-- C4 (confirmed): calibration_objective equals the sum, over exactly the
quotes with strictly positive market price, of ((heston_price − market) /
market)²; a quote with non-positive market price contributes nothing. The
normalized kind of each positive-market quote must be priceable, since the
Python loop would crash on None arithmetic otherwise. -/
theorem C4_calibration_objective (kappa theta rho v0 r_fixed : ℝ)
    (data : List Quote)
    (hvalid : ∀ q ∈ data, q.real_market_price > 0 →
      pyStrip (pyLower q.option_type) = "call" ∨ pyStrip (pyLower q.option_type) = "put") :
    calibration_objective kappa theta rho v0 data r_fixed
      = some (((data.filter fun q => decide (q.real_market_price > 0)).map
          (quoteTerm kappa theta rho v0 r_fixed)).sum) := by
  unfold calibration_objective
  rw [calibration_fold kappa theta rho v0 r_fixed data 0 hvalid, zero_add]

/-- Witness for C4: one priceable quote with positive market price and one
quote with negative market price; only the former contributes. -/
theorem C4_witness :
    calibration_objective 2 0.04 (-0.7) 0.04
      [⟨1, 1, 1, "call", 1, 0.2⟩, ⟨1, 1, 1, "x", -1, 0.2⟩] 0.045
      = some (quoteTerm 2 0.04 (-0.7) 0.04 0.045 ⟨1, 1, 1, "call", 1, 0.2⟩) := by
  have hvalid : ∀ q ∈ ([⟨1, 1, 1, "call", 1, 0.2⟩,
      ⟨1, 1, 1, "x", -1, 0.2⟩] : List Quote),
      q.real_market_price > 0 →
      pyStrip (pyLower q.option_type) = "call"
        ∨ pyStrip (pyLower q.option_type) = "put" := by
    intro q hq hm
    rcases List.mem_cons.mp hq with rfl | hq2
    · left
      decide
    · rcases List.mem_cons.mp hq2 with rfl | h3
      · exact absurd hm (by norm_num)
      · cases h3
  rw [C4_calibration_objective 2 0.04 (-0.7) 0.04 0.045 _ hvalid]
  rw [List.filter_cons_of_pos (p := fun q : Quote => decide (q.real_market_price > 0))
      (decide_eq_true (show (⟨1, 1, 1, "call", 1, 0.2⟩ : Quote).real_market_price > 0
        by norm_num)),
    List.filter_cons_of_neg (p := fun q : Quote => decide (q.real_market_price > 0))
      (by norm_num),
    List.filter_nil, List.map_cons, List.map_nil, List.sum_cons, List.sum_nil,
    add_zero]

/-! ## Claim C8 -/

/-- Membership in the outlier-rejection output: kept iff the row's error exists
and is strictly below the 97.5th percentile. -/
lemma outlierStep_mem {rows : List PricedQuote} {p : PricedQuote} :
    p ∈ outlierStep rows ↔ p ∈ rows ∧ ∃ e, errOf p = some e
      ∧ e < quantile975 (rows.filterMap errOf) := by
  unfold outlierStep
  rw [List.mem_filter]
  constructor
  · rintro ⟨hmem, hcond⟩
    refine ⟨hmem, ?_⟩
    cases herr : errOf p with
    | none =>
      simp only [herr] at hcond
      exact absurd hcond (by simp)
    | some e =>
      simp only [herr] at hcond
      exact ⟨e, rfl, of_decide_eq_true hcond⟩
  · rintro ⟨hmem, e, herr, hlt⟩
    refine ⟨hmem, ?_⟩
    simp only [herr]
    exact decide_eq_true hlt

/-- C8 (amended): the outlier-rejection step keeps exactly the quotes whose
absolute Heston pricing error is strictly below the 97.5th
linear-interpolation percentile of the error distribution — i.e. it drops
every quote with error greater than or equal to the percentile, not only
those strictly exceeding it, and no ⌈0.975·N⌉ lower bound on the output size
holds. -/
theorem C8_outlier_rejection (rows : List PricedQuote) (p : PricedQuote) :
    p ∈ outlierStep rows ↔ p ∈ rows ∧ ∃ e, errOf p = some e
      ∧ e < quantile975 (rows.filterMap errOf) :=
  outlierStep_mem

lemma errOf_unitRow :
    errOf ⟨⟨1, 1, 1, "call", 1, 0.2⟩, some 2⟩ = some 1 := by
  simp only [errOf, Option.map_some']
  norm_num

lemma quantile975_pair : quantile975 [1, 1] = 1 := by
  have hsort : sortR [1, 1] = [1, 1] := by
    simp [sortR, insertSorted]
  have hfl : ⌊(0.975 : ℝ) * ((([1, 1] : List ℝ).length : ℝ) - 1)⌋₊ = 0 := by
    norm_num
  simp only [quantile975, hsort, hfl]
  norm_num

/-- C8 counterexample: two quotes with equal errors are both dropped (the
common error equals the percentile), so the output is empty although the
claim's lower bound ⌈0.975·2⌉ = 2 demands that both be kept. -/
theorem C8_counterexample :
    outlierStep [⟨⟨1, 1, 1, "call", 1, 0.2⟩, some 2⟩,
        ⟨⟨1, 1, 1, "call", 1, 0.2⟩, some 2⟩] = []
    ∧ Nat.ceil ((0.975 : ℝ) * 2) = 2 := by
  constructor
  · have hfm : ([⟨⟨1, 1, 1, "call", 1, 0.2⟩, some 2⟩,
        ⟨⟨1, 1, 1, "call", 1, 0.2⟩, some 2⟩] :
        List PricedQuote).filterMap errOf = [1, 1] := by
      simp [List.filterMap_cons, errOf_unitRow]
    unfold outlierStep
    simp only [hfm, quantile975_pair, List.filter_cons, errOf_unitRow]
    norm_num
  · rw [Nat.ceil_eq_iff (by norm_num)]
    norm_num

/-! ## Claim C10 -/

lemma priceStep_hp_none {kappa theta rho v0 r_fixed : ℝ} {qs : List Quote}
    {p : PricedQuote} (hp : p ∈ priceStep kappa theta rho v0 r_fixed qs)
    (hm : p.quote.real_market_price ≤ 0) : p.hp = none := by
  unfold priceStep at hp
  obtain ⟨q, hq, rfl⟩ := List.mem_map.mp hp
  exact if_neg (not_lt.mpr hm)

lemma dampStep_none {rows : List PricedQuote} {p : PricedQuote}
    (hp : p ∈ dampStep rows) :
    ∃ p' ∈ rows, p.quote = p'.quote ∧ (p'.hp = none → p.hp = none) := by
  unfold dampStep at hp
  obtain ⟨p', hp', rfl⟩ := List.mem_map.mp hp
  by_cases hc : p'.quote.strike_price > p'.quote.spot_price * 1.5
  · rw [if_pos hc]
    exact ⟨p', hp', rfl, fun h => by
      show (p'.hp.map fun v => v * 0.95) = none
      rw [h]
      rfl⟩
  · rw [if_neg hc]
    exact ⟨p', hp', rfl, fun h => h⟩

/-- C10 (amended): in the Heston pricing pass a quote with non-positive market
price is assigned no Heston price, and it is already removed by the
outlier-rejection comparison (a missing error never satisfies error <
percentile), so every row surviving outlier rejection — and a fortiori the
final NaN drop — has strictly positive market price. -/
theorem C10_market_filter (kappa theta rho v0 r_fixed : ℝ) (qs : List Quote) :
    (∀ p ∈ priceStep kappa theta rho v0 r_fixed qs,
        p.quote.real_market_price ≤ 0 → p.hp = none)
    ∧ (∀ p ∈ outlierStep (dampStep (priceStep kappa theta rho v0 r_fixed qs)),
        0 < p.quote.real_market_price)
    ∧ (∀ p ∈ dropnaStep (outlierStep (dampStep
          (priceStep kappa theta rho v0 r_fixed qs))),
        0 < p.quote.real_market_price) := by
  have h1 : ∀ p ∈ priceStep kappa theta rho v0 r_fixed qs,
      p.quote.real_market_price ≤ 0 → p.hp = none :=
    fun p hp hm => priceStep_hp_none hp hm
  have h2 : ∀ p ∈ outlierStep (dampStep (priceStep kappa theta rho v0 r_fixed qs)),
      0 < p.quote.real_market_price := by
    intro p hp
    obtain ⟨hmem, e, herr, _⟩ := outlierStep_mem.mp hp
    obtain ⟨p', hp', hq, hnone⟩ := dampStep_none hmem
    by_contra hle
    push_neg at hle
    have h0 : p'.hp = none := priceStep_hp_none hp' (hq ▸ hle)
    have hpn : p.hp = none := hnone h0
    unfold errOf at herr
    rw [hpn] at herr
    exact Option.noConfusion herr
  exact ⟨h1, h2, fun p hp => h2 p (List.mem_of_mem_filter hp)⟩

lemma priceStep_negQuote :
    priceStep 2 0.04 (-0.7) 0.04 0.045 [⟨1, 1, 1, "call", -1, 0.2⟩]
      = [⟨⟨1, 1, 1, "call", -1, 0.2⟩, none⟩] := by
  unfold priceStep
  rw [List.map_cons, List.map_nil, if_neg (by norm_num)]

/-- C10 counterexample: for a single quote with negative market price the
pipeline output is already empty before the final NaN drop — the quote is
removed by the outlier-rejection step, not by the final drop of quotes
lacking a finite price, which therefore removes nothing. -/
theorem C10_counterexample :
    outlierStep (dampStep (priceStep 2 0.04 (-0.7) 0.04 0.045
      [⟨1, 1, 1, "call", -1, 0.2⟩])) = [] := by
  rw [priceStep_negQuote]
  have h2 : dampStep [⟨⟨1, 1, 1, "call", -1, 0.2⟩, none⟩]
      = [⟨⟨1, 1, 1, "call", -1, 0.2⟩, none⟩] := by
    unfold dampStep
    rw [List.map_cons, List.map_nil, if_neg (by norm_num)]
  rw [h2]
  unfold outlierStep
  rw [List.filter_cons_of_neg (by simp [errOf]), List.filter_nil]

/-- Witness for C10: the negative-market quote is assigned no Heston price. -/
theorem C10_witness :
    (⟨⟨1, 1, 1, "call", -1, 0.2⟩, none⟩ : PricedQuote).hp = none :=
  (C10_market_filter 2 0.04 (-0.7) 0.04 0.045 [⟨1, 1, 1, "call", -1, 0.2⟩]).1
    ⟨⟨1, 1, 1, "call", -1, 0.2⟩, none⟩
    (by rw [priceStep_negQuote]; exact List.mem_singleton.mpr rfl)
    (by norm_num)

end CryptoOptions
